import Mathlib

/-!
Verification of the `@add:` directive processor of the EnhancedCustomCSS
extension (`src/cssProcessor.js`, with the near-duplicate variant in
`src/unnamed/part_001`).

The JavaScript code is a stateless text-to-command transform built from three
regular expressions plus a hand-rolled position-keyword translator.  Every
definition below is a shallow embedding of the corresponding source function,
working over `List Char` (JavaScript strings are sequences of code units; the
inputs of interest are ASCII).  The three regexes are deterministic on every
input (each quantifier's extent is forced, as argued in the doc comment of the
corresponding matcher), so they are embedded as executable scanners.
-/

/-- The whitespace class used by JavaScript `\s` and `String.prototype.trim`,
restricted to the ASCII range (space, tab, line feed, carriage return,
vertical tab, form feed). -/
def jsSpace (c : Char) : Bool :=
  c = ' ' || c = '\t' || c = '\n' || c = '\r' || c = '\x0b' || c = '\x0c'

/-- ASCII lower-casing, modelling `toLowerCase` as used by the `i` regex flag
on the ASCII tag names involved. -/
def lowCh (c : Char) : Char :=
  if 'A' ≤ c ∧ c ≤ 'Z' then Char.ofNat (c.toNat + 32) else c

/-- Case-insensitive character comparison (regex `i` flag). -/
def ciEq (a b : Char) : Bool := lowCh a = lowCh b

/-- `leadsWith pat l` holds when `pat` is an initial segment of `l`
(JavaScript `String.prototype.startsWith`, and literal text at the current
regex position). -/
def leadsWith : List Char → List Char → Bool
  | [], _ => true
  | _ :: _, [] => false
  | p :: ps, c :: cs => p = c && leadsWith ps cs

/-- `containsSub l pat` holds when `pat` occurs contiguously somewhere in `l`
(JavaScript `String.prototype.includes`). -/
def containsSub : List Char → List Char → Bool
  | [], pat => pat.isEmpty
  | c :: cs, pat => leadsWith pat (c :: cs) || containsSub cs pat

/-- Replace the first occurrence of `pat` in `l` by `rep`; identity when `pat`
does not occur (JavaScript `String.prototype.replace` with a string search
value). -/
def replaceFirstL (pat rep : List Char) : List Char → List Char
  | [] => if pat.isEmpty then rep else []
  | c :: cs =>
    if leadsWith pat (c :: cs) then rep ++ (c :: cs).drop pat.length
    else c :: replaceFirstL pat rep cs

/-- Strip whitespace from both ends (JavaScript `String.prototype.trim`). -/
def trimWS (l : List Char) : List Char :=
  ((l.reverse.dropWhile jsSpace).reverse).dropWhile jsSpace

/-- String-level wrapper for `containsSub`. -/
def strContains (s pat : String) : Bool := containsSub s.data pat.data

/-- String-level wrapper for `replaceFirstL`. -/
def strReplaceFirst (s pat rep : String) : String :=
  ⟨replaceFirstL pat.data rep.data s.data⟩

/-- String-level wrapper for `trimWS`. -/
def strTrim (s : String) : String := ⟨trimWS s.data⟩

/-- String-level wrapper for `leadsWith`. -/
def strLeads (s pat : String) : Bool := leadsWith pat.data s.data

/-- Embedding of `parsePosition` (`src/cssProcessor.js` lines 176–204): one
whitespace-free position token becomes a partial style mapping, represented as
an association list in insertion order.  The chain of `replace` calls is the
source's: `pos.replace('--','NEG')`, then per keyword
`pos.replace('<kw>-','').replace('<kw>','0')`, then `value.replace('NEG','-')`,
each replacing only the first occurrence.  `parseAdvancedPosition` in
`src/unnamed/part_001` is the same function without the `center` branch. -/
def parsePosition (pos : String) : List (String × String) :=
  if pos = "" then []
  else
    let p := strReplaceFirst pos "--" "NEG"
    if strContains p "top" then
      [("top", strReplaceFirst (strReplaceFirst (strReplaceFirst p "top-" "") "top" "0") "NEG" "-")]
    else if strContains p "bottom" then
      [("bottom", strReplaceFirst (strReplaceFirst (strReplaceFirst p "bottom-" "") "bottom" "0") "NEG" "-")]
    else if strContains p "left" then
      [("left", strReplaceFirst (strReplaceFirst (strReplaceFirst p "left-" "") "left" "0") "NEG" "-")]
    else if strContains p "right" then
      [("right", strReplaceFirst (strReplaceFirst (strReplaceFirst p "right-" "") "right" "0") "NEG" "-")]
    else if strContains p "center" then
      [("left", "50%"), ("top", "50%"), ("transform", "translate(-50%, -50%)")]
    else []

/-- JavaScript `Object.assign(base, upd)` on plain objects viewed as ordered
key/value lists: keys already present are overwritten in place, new keys are
appended in the update's order. -/
def objAssign (base upd : List (String × String)) : List (String × String) :=
  upd.foldl
    (fun acc kv =>
      if acc.any (fun p => p.1 = kv.1) then
        acc.map (fun p => if p.1 = kv.1 then (p.1, kv.2) else p)
      else acc ++ [kv])
    base

/-- Case-insensitive `leadsWith` (regex literal text under the `i` flag). -/
def leadsWithCI : List Char → List Char → Bool
  | [], _ => true
  | _ :: _, [] => false
  | p :: ps, c :: cs => ciEq p c && leadsWithCI ps cs

/-- Split at the first occurrence of the character `t`: when `t` occurs,
`splitAtChar t l = some (pre, post)` with `l = pre ++ t :: post` and `pre`
free of `t`; `none` when `t` does not occur.  This is how a regex fragment
`[^t]*t` consumes input: the greedy class run is forced to stop at the first
`t`, which the following literal then consumes; if `t` never occurs the
fragment fails. -/
def splitAtChar (t : Char) (l : List Char) : Option (List Char × List Char) :=
  match l.dropWhile (fun c => c ≠ t) with
  | [] => none
  | _ :: rest => some (l.takeWhile (fun c => c ≠ t), rest)

/-- First case-insensitive occurrence of `pat`: `some (pre, mid, post)` with
`l = pre ++ mid ++ post`, `mid` the actual input characters matching `pat`
case-insensitively, and `pre` minimal.  This is how the non-greedy
`([\s\S]*?)` followed by a literal consumes input: the lazy group stops at
the first position where the literal matches. -/
def findSubCI (pat : List Char) : List Char → Option (List Char × List Char × List Char)
  | [] => if pat.isEmpty then some ([], [], []) else none
  | c :: cs =>
    if leadsWithCI pat (c :: cs) then
      some ([], (c :: cs).take pat.length, (c :: cs).drop pat.length)
    else
      match findSubCI pat cs with
      | some (pre, mid, post) => some (c :: pre, mid, post)
      | none => none

/-- One match of `scriptRegex = /<script[^>]*>([\s\S]*?)<\/script>/gi`
(`src/cssProcessor.js` line 50) anchored at the start of `l`: literal
`<script` (case-insensitive), then `[^>]*>` (forced: the greedy class stops
at the first `>`, which the literal consumes), then the lazy body up to the
first case-insensitive `</script>`.  Returns the match together with the
remaining input after it; `full` is the exact matched text (`match[0]`),
`body` the first capture group. -/
structure ScriptMatch where
  full : List Char
  body : List Char
deriving DecidableEq, Repr

def scriptMatchAt (l : List Char) : Option (ScriptMatch × List Char) :=
  if leadsWithCI "<script".data l then
    match splitAtChar '>' (l.drop 7) with
    | none => none
    | some (attrs, afterGt) =>
      match findSubCI "</script>".data afterGt with
      | none => none
      | some (body, closeTag, rest) =>
        some ({ full := l.take 7 ++ attrs ++ '>' :: (body ++ closeTag), body := body }, rest)
  else none

/-- The `exec` loop of a global regex: at each position try the anchored
matcher; on success emit the match and resume after it (`lastIndex`), on
failure advance one character.  The fuel argument bounds the recursion; with
`fuel = l.length` it never runs out, since every step consumes at least one
character. -/
def scriptScanAux : Nat → List Char → List ScriptMatch
  | 0, _ => []
  | _ + 1, [] => []
  | fuel + 1, c :: cs =>
    match scriptMatchAt (c :: cs) with
    | some (m, rest) => m :: scriptScanAux fuel rest
    | none => scriptScanAux fuel cs

def scriptScan (l : List Char) : List ScriptMatch := scriptScanAux l.length l

/-- Embedding of `extractJavaScript` (`src/cssProcessor.js` lines 45–62):
for each script match, in order, append the body plus a newline to the
accumulated script text and delete the first occurrence of the matched text
from the evolving CSS (`css = css.replace(match[0], '')`); finally trim
both. -/
structure ExtractResult where
  css : String
  javascript : String
deriving DecidableEq, Repr

def extractJavaScript (content : String) : ExtractResult :=
  let out := (scriptScan content.data).foldl
    (fun acc m => (replaceFirstL m.full [] acc.1, acc.2 ++ m.body ++ ['\n']))
    (content.data, ([] : List Char))
  { css := ⟨trimWS out.1⟩, javascript := ⟨trimWS out.2⟩ }

/-- One match of `ruleRegex = /([^{]+)\s*\{([^}]*)\}/g`
(`src/cssProcessor.js` line 74) anchored at the start of `l`.  The greedy
`[^{]+` is forced to run to the first `\x7b` (so it also swallows the
trailing whitespace and `\s*` matches empty), and `[^}]*\}` stops at the
first `\x7d`; if either brace is missing the match fails.  `selector` is the
raw first group (untrimmed), `body` the second. -/
structure RuleMatch where
  selector : List Char
  body : List Char
  full : List Char
deriving DecidableEq, Repr

def ruleMatchAt (l : List Char) : Option (RuleMatch × List Char) :=
  let sel := l.takeWhile (fun c => c ≠ '\x7b')
  if sel.isEmpty then none
  else
    match l.dropWhile (fun c => c ≠ '\x7b') with
    | [] => none
    | _ :: afterBrace =>
      match splitAtChar '\x7d' afterBrace with
      | none => none
      | some (body, rest) =>
        some ({ selector := sel, body := body,
                full := sel ++ '\x7b' :: (body ++ ['\x7d']) }, rest)

def ruleScanAux : Nat → List Char → List RuleMatch
  | 0, _ => []
  | _ + 1, [] => []
  | fuel + 1, c :: cs =>
    match ruleMatchAt (c :: cs) with
    | some (m, rest) => m :: ruleScanAux fuel rest
    | none => ruleScanAux fuel cs

def ruleScan (l : List Char) : List RuleMatch := ruleScanAux l.length l

/-- The character class `[a-zA-Z0-9_-]` of the directive's class name. -/
def wordChar (c : Char) : Bool :=
  ('a' ≤ c && c ≤ 'z') || ('A' ≤ c && c ≤ 'Z') || ('0' ≤ c && c ≤ '9') || c = '_' || c = '-'

/-- One optional parameter group `(?:\s+([^\s;]+))?` of the directive regex:
a nonempty whitespace run followed by a nonempty run of
non-whitespace-non-semicolon characters; if either run is empty the group
matches nothing (the following `[;]?` can never force backtracking).
Returns `(ws, token, rest)` with the input equal to `ws ++ token ++ rest`. -/
def addParamAt (l : List Char) : Option (List Char × List Char × List Char) :=
  let ws := l.takeWhile jsSpace
  if ws.isEmpty then none
  else
    let afterWs := l.dropWhile jsSpace
    let tok := afterWs.takeWhile (fun c => !jsSpace c && c ≠ ';')
    if tok.isEmpty then none
    else some (ws, tok, afterWs.dropWhile (fun c => !jsSpace c && c ≠ ';'))

/-- Run one optional parameter group: the consumed text, the captured token
(if any), and the rest. -/
def addParamStep (l : List Char) : List Char × Option (List Char) × List Char :=
  match addParamAt l with
  | some (ws, tok, rest) => (ws ++ tok, some tok, rest)
  | none => ([], none, l)

/-- One match of the directive regex
`/@add:\s*([a-zA-Z0-9_-]+)\s+"([^"]*)"(?:\s+([^\s;]+))?(?:\s+([^\s;]+))?(?:\s+([^\s;]+))?(?:\s+([^\s;]+))?[;]?/g`
(`src/cssProcessor.js` line 82) anchored at the start of `l`: literal
`@add:` (case-sensitive), optional whitespace, a nonempty class-name run, a
nonempty whitespace run, a double-quoted content (the class `[^"]*` stops at
the first closing quote, which must exist), four optional parameter groups
and an optional semicolon.  Adjacent quantifiers draw from disjoint
character classes, so every extent is forced and the match is deterministic.
`params` lists the four capture groups (`undefined` as `none`). -/
structure AddMatch where
  full : List Char
  name : List Char
  content : List Char
  params : List (Option (List Char))
deriving DecidableEq, Repr

def addMatchAt (l : List Char) : Option (AddMatch × List Char) :=
  if leadsWith "@add:".data l then
    let l1 := l.drop 5
    let ws1 := l1.takeWhile jsSpace
    let l2 := l1.dropWhile jsSpace
    let name := l2.takeWhile wordChar
    if name.isEmpty then none
    else
      let l3 := l2.dropWhile wordChar
      let ws2 := l3.takeWhile jsSpace
      if ws2.isEmpty then none
      else
        match l3.dropWhile jsSpace with
        | [] => none
        | q1 :: l4 =>
          if q1 = '"' then
            match splitAtChar '"' l4 with
            | none => none
            | some (content, l5) =>
              let s1 := addParamStep l5
              let s2 := addParamStep s1.2.2
              let s3 := addParamStep s2.2.2
              let s4 := addParamStep s3.2.2
              let semiSplit : List Char × List Char :=
                match s4.2.2 with
                | ';' :: r => ([';'], r)
                | other => ([], other)
              some ({ full := "@add:".data ++ (ws1 ++ (name ++ (ws2 ++ '"' ::
                        (content ++ '"' ::
                          (s1.1 ++ (s2.1 ++ (s3.1 ++ (s4.1 ++ semiSplit.1)))))))),
                      name := name, content := content,
                      params := [s1.2.1, s2.2.1, s3.2.1, s4.2.1] }, semiSplit.2)
          else none
  else none

def addScanAux : Nat → List Char → List AddMatch
  | 0, _ => []
  | _ + 1, [] => []
  | fuel + 1, c :: cs =>
    match addMatchAt (c :: cs) with
    | some (m, rest) => m :: addScanAux fuel rest
    | none => addScanAux fuel cs

def addScan (l : List Char) : List AddMatch := addScanAux l.length l

/-- The parsed spawn command (`parseImageCommand` / `parseTextCommand`
result objects).  Fields absent from the JavaScript object are `none`;
`size := none` models `size: null`. -/
structure AddCommand where
  type : String
  selector : String
  className : String
  url : Option String := none
  text : Option String := none
  size : Option String := none
  position : List (String × String) := []
deriving DecidableEq, Repr

/-- One step of the `params.forEach` loop of `parseImageCommand`
(`src/cssProcessor.js` lines 130–138): a truthy parameter containing `x`
overwrites the size, any other truthy parameter is merged into the position
mapping. -/
def imgStep (acc : Option String × List (String × String)) (param : String) :
    Option String × List (String × String) :=
  if param != "" && strContains param "x" then (some param, acc.2)
  else if param != "" then (acc.1, objAssign acc.2 (parsePosition param))
  else acc

/-- Embedding of `parseImageCommand` (`src/cssProcessor.js` lines 125–148).
`url` is `content.slice(4, -1)`: drop the last character, then the first
four, regardless of where the closing parenthesis actually is. -/
def parseImageCommand (selector className content : String) (params : List String) :
    AddCommand :=
  let url := String.mk ((content.data.dropLast).drop 4)
  let sp := params.foldl imgStep (none, [])
  { type := "image", selector := selector, className := className,
    url := some url, size := sp.1, position := sp.2 }

/-- Embedding of `parseTextCommand` (`src/cssProcessor.js` lines 153–169). -/
def parseTextCommand (selector className content : String) (params : List String) :
    AddCommand :=
  let pos := params.foldl
    (fun acc param => if param != "" then objAssign acc (parsePosition param) else acc) []
  { type := "text", selector := selector, className := className,
    text := some content, position := pos }

/-- Embedding of `parseAddCommand` (`src/cssProcessor.js` lines 107–120):
filter the four capture groups by truthiness (`.filter(Boolean)` drops
`undefined` and empty strings), then classify by the literal prefix `url(`.
Both branches return a command unconditionally. -/
def parseAddCommand (selector className content : String)
    (rawParams : List (Option String)) : AddCommand :=
  let params := (rawParams.filterMap id).filter (fun p => p != "")
  if strLeads content "url(" then parseImageCommand selector className content params
  else parseTextCommand selector className content params

/-- One iteration of the inner `while (addMatch = addRegex.exec(content))`
loop of `processAddSyntax` (`src/cssProcessor.js` lines 85–92): parse the
command (always non-null), push it, and delete the first occurrence of the
matched text from the evolving CSS. -/
def addStep (selector : List Char) (acc : List Char × List AddCommand) (m : AddMatch) :
    List Char × List AddCommand :=
  let cmd := parseAddCommand (strTrim ⟨selector⟩) ⟨m.name⟩ ⟨m.content⟩
      (m.params.map (fun o => o.map String.mk))
  (replaceFirstL m.full [] acc.1, acc.2 ++ [cmd])

/-- One iteration of the outer rule loop of `processAddSyntax`: run the
directive scanner over the rule body (a fresh `addRegex` per rule). -/
def ruleStep (acc : List Char × List AddCommand) (r : RuleMatch) :
    List Char × List AddCommand :=
  (addScan r.body).foldl (addStep r.selector) acc

/-- Embedding of `processAddSyntax` (`src/cssProcessor.js` lines 69–99):
scan the CSS for rules, scan each rule body for directives, and for each
directive emit a command and delete the first occurrence of the matched text
from the evolving CSS (the rule scan runs over the original CSS). -/
def processAddSyntax (css : String) : String × List AddCommand :=
  let out := (ruleScan css.data).foldl ruleStep (css.data, ([] : List AddCommand))
  (⟨out.1⟩, out.2)

/-- Result record of `process` (`src/cssProcessor.js` lines 16–38). -/
structure ProcessResult where
  css : String
  javascript : String
  addCommands : List AddCommand
deriving DecidableEq, Repr

/-- Embedding of `process` (`src/cssProcessor.js` lines 16–38): falsy input
(the empty string) returns the neutral record before either helper runs;
otherwise extract the scripts, then process the `@add` directives on the
already-trimmed CSS. -/
def process (content : String) : ProcessResult :=
  if content = "" then { css := "", javascript := "", addCommands := [] }
  else
    let ex := extractJavaScript content
    let ap := processAddSyntax ex.css
    { css := ap.1, javascript := ex.javascript, addCommands := ap.2 }

/-- JavaScript `String.prototype.split` with a single-character separator. -/
def splitOnCh (t : Char) : List Char → List (List Char)
  | [] => [[]]
  | c :: cs =>
    if c = t then [] :: splitOnCh t cs
    else
      match splitOnCh t cs with
      | [] => [[c]]
      | h :: tl => (c :: h) :: tl

/-- A decoration DOM node, abstracted to the attributes the executor sets;
styles never set remain `none`. -/
structure DecorElement where
  tag : String
  className : String
  backgroundImage : Option String := none
  backgroundSize : Option String := none
  backgroundRepeat : Option String := none
  backgroundPosition : Option String := none
  width : Option String := none
  height : Option String := none
  textContent : Option String := none
deriving DecidableEq, Repr

/-- Embedding of `createImageElement` (`src/cssProcessor.js` lines 249–268):
background styles always, then `width`/`height` from `size.split('x')` when
a size is present, and the default `50px`/`50px` otherwise.  The string
`undefined` models JavaScript `undefined` leaking into a string
concatenation. -/
def createImageElement (cmd : AddCommand) : DecorElement :=
  let base : DecorElement :=
    { tag := "div", className := "enhanced-add-" ++ cmd.className,
      backgroundImage := some ("url(" ++ cmd.url.getD "undefined" ++ ")"),
      backgroundSize := some "contain", backgroundRepeat := some "no-repeat",
      backgroundPosition := some "center" }
  match cmd.size with
  | some s =>
    let parts := splitOnCh 'x' s.data
    { base with width := some (String.mk (parts.getD 0 "undefined".data) ++ "px"),
                height := some (String.mk (parts.getD 1 "undefined".data) ++ "px") }
  | none => { base with width := some "50px", height := some "50px" }

/-- The image-element construction inlined in `executeAddCommands` of
`src/unnamed/part_001` (lines 438–451): identical to `createImageElement`
except that when `cmd.size` is null no width or height is set at all. -/
def createImageElementVariant (cmd : AddCommand) : DecorElement :=
  let base : DecorElement :=
    { tag := "div", className := "enhanced-add-" ++ cmd.className,
      backgroundImage := some ("url(" ++ cmd.url.getD "undefined" ++ ")"),
      backgroundSize := some "contain", backgroundRepeat := some "no-repeat",
      backgroundPosition := some "center" }
  match cmd.size with
  | some s =>
    let parts := splitOnCh 'x' s.data
    { base with width := some (String.mk (parts.getD 0 "undefined".data) ++ "px"),
                height := some (String.mk (parts.getD 1 "undefined".data) ++ "px") }
  | none => base

/-- Embedding of `createTextElement` (`src/cssProcessor.js` lines 273–279). -/
def createTextElement (cmd : AddCommand) : DecorElement :=
  { tag := "span", className := "enhanced-add-" ++ cmd.className,
    textContent := some (cmd.text.getD "undefined") }


/-- The multiset of characters of a string, used to state that the splitter
deletes exactly the matched text (order aside). -/
def mset (l : List Char) : Multiset Char := (l : Multiset Char)

/-- Newline-joined concatenation of a list of strings (the shape the spec
ascribes to the accumulated script text). -/
def joinNL : List (List Char) → List Char
  | [] => []
  | [b] => b
  | b :: bs => b ++ '\n' :: joinNL bs

/-- The selector/match pairs of all directives, rule by rule, in scan order. -/
def cmdOfPair (p : List Char × AddMatch) : AddCommand :=
  parseAddCommand (strTrim ⟨p.1⟩) ⟨p.2.name⟩ ⟨p.2.content⟩
    (p.2.params.map (fun o => o.map String.mk))

def allDirectives (css : String) : List (List Char × AddMatch) :=
  (ruleScan css.data).foldl
    (fun acc r => acc ++ (addScan r.body).map (fun m => (r.selector, m))) []

theorem leadsWith_iff : ∀ (p l : List Char), leadsWith p l = true ↔ ∃ t, l = p ++ t
  | [], l => by simp [leadsWith]
  | a :: ps, [] => by
    simp only [leadsWith, Bool.false_eq_true, false_iff]
    rintro ⟨t, h⟩
    exact absurd h (by simp)
  | a :: ps, c :: cs => by
    simp only [leadsWith, Bool.and_eq_true, decide_eq_true_eq, leadsWith_iff ps cs]
    constructor
    · rintro ⟨h1, t, h2⟩
      exact ⟨t, by rw [List.cons_append, h1, h2]⟩
    · rintro ⟨t, h⟩
      rw [List.cons_append] at h
      injection h with h1 h2
      exact ⟨h1.symm, t, h2⟩

theorem leadsWith_append_drop {p l : List Char} (h : leadsWith p l = true) :
    l = p ++ l.drop p.length := by
  obtain ⟨t, rfl⟩ := (leadsWith_iff p l).1 h
  simp

theorem containsSub_iff : ∀ (l p : List Char), containsSub l p = true ↔ ∃ u v, l = u ++ p ++ v
  | [], p => by
    simp only [containsSub, List.isEmpty_iff]
    constructor
    · rintro rfl; exact ⟨[], [], rfl⟩
    · rintro ⟨u, v, h⟩
      rcases List.append_eq_nil.1 h.symm with ⟨hup, hv⟩
      exact (List.append_eq_nil.1 hup).2
  | c :: cs, p => by
    simp only [containsSub, Bool.or_eq_true, leadsWith_iff, containsSub_iff cs p]
    constructor
    · rintro (⟨t, h⟩ | ⟨u, v, h⟩)
      · exact ⟨[], t, by simpa using h⟩
      · exact ⟨c :: u, v, by simp [h]⟩
    · rintro ⟨u, v, h⟩
      cases u with
      | nil => exact Or.inl ⟨v, by simpa using h⟩
      | cons x xs =>
        rw [List.cons_append, List.cons_append] at h
        injection h with h1 h2
        exact Or.inr ⟨xs, v, h2⟩

theorem containsSub_append_right (a : List Char) {b p : List Char}
    (h : containsSub b p = true) : containsSub (a ++ b) p = true := by
  obtain ⟨u, v, rfl⟩ := (containsSub_iff b p).1 h
  exact (containsSub_iff _ p).2 ⟨a ++ u, v, by simp⟩

theorem containsSub_append_left {a p : List Char} (b : List Char)
    (h : containsSub a p = true) : containsSub (a ++ b) p = true := by
  obtain ⟨u, v, rfl⟩ := (containsSub_iff a p).1 h
  exact (containsSub_iff _ p).2 ⟨u, v ++ b, by simp⟩

theorem replaceFirstL_of_leads {p r l : List Char} (h : leadsWith p l = true) :
    replaceFirstL p r l = r ++ l.drop p.length := by
  cases l with
  | nil =>
    cases p with
    | nil => simp [replaceFirstL]
    | cons a as => simp [leadsWith] at h
  | cons c cs => simp [replaceFirstL, h]

theorem replaceFirstL_cons_of_not {p r : List Char} {c : Char} {cs : List Char}
    (h : ¬leadsWith p (c :: cs) = true) :
    replaceFirstL p r (c :: cs) = c :: replaceFirstL p r cs := by
  simp [replaceFirstL, h]

theorem replaceFirstL_of_not {p r : List Char} :
    ∀ {l : List Char}, containsSub l p = false → replaceFirstL p r l = l
  | [], h => by
    simp only [containsSub] at h
    simp [replaceFirstL, h]
  | c :: cs, h => by
    simp only [containsSub, Bool.or_eq_false_iff] at h
    rw [replaceFirstL_cons_of_not (by simp [h.1])]
    exact congrArg (c :: ·) (replaceFirstL_of_not h.2)

theorem replaceFirstL_split {p r : List Char} :
    ∀ {l : List Char}, containsSub l p = true →
      ∃ x y, l = x ++ p ++ y ∧ replaceFirstL p r l = x ++ r ++ y
  | [], h => by
    simp only [containsSub, List.isEmpty_iff] at h
    subst h
    exact ⟨[], [], rfl, by simp [replaceFirstL]⟩
  | c :: cs, h => by
    by_cases hl : leadsWith p (c :: cs) = true
    · refine ⟨[], (c :: cs).drop p.length, ?_, ?_⟩
      · simpa using leadsWith_append_drop hl
      · rw [replaceFirstL_of_leads hl]
        simp
    · simp only [containsSub, Bool.or_eq_true] at h
      rcases h with h | h
      · exact absurd h hl
      · obtain ⟨x, y, hx, hr⟩ := replaceFirstL_split (r := r) h
        refine ⟨c :: x, y, ?_, ?_⟩
        · rw [List.cons_append, List.cons_append, hx]
        · rw [replaceFirstL_cons_of_not hl, List.cons_append, List.cons_append, hr]

theorem replaceFirstL_exhibit :
    ∀ (Z : List Char) (p w r : List Char),
      ∃ x y, Z ++ p ++ w = x ++ p ++ y ∧
        replaceFirstL p r (Z ++ p ++ w) = x ++ r ++ y ∧ x.length ≤ Z.length
  | [], p, w, r => by
    have hlw : leadsWith p (p ++ w) = true := (leadsWith_iff _ _).2 ⟨w, rfl⟩
    refine ⟨[], w, by simp, ?_, le_refl _⟩
    rw [List.nil_append, List.nil_append, replaceFirstL_of_leads hlw, List.drop_left]
  | z :: Z', p, w, r => by
    by_cases hb : leadsWith p ((z :: Z') ++ p ++ w) = true
    · refine ⟨[], ((z :: Z') ++ p ++ w).drop p.length, ?_, ?_, by simp⟩
      · simpa using leadsWith_append_drop hb
      · rw [replaceFirstL_of_leads hb]
        simp
    · obtain ⟨x, y, h1, h2, h3⟩ := replaceFirstL_exhibit Z' p w r
      refine ⟨z :: x, y, ?_, ?_, by simpa using h3⟩
      · simp only [List.cons_append]
        rw [h1]
      · have hb' : ¬leadsWith p (z :: (Z' ++ p ++ w)) = true := by
          simpa using hb
        simp only [List.cons_append]
        rw [replaceFirstL_cons_of_not hb', h2]
theorem occSplit {a m b u w v : List Char} (hm : m ≠ [])
    (hdisj : ∀ c ∈ m, c ∉ w) (h : a ++ m ++ b = u ++ w ++ v) :
    (∃ x y, a = x ++ w ++ y) ∨ (∃ x y, b = x ++ w ++ y) := by
  by_cases hwe : w = []
  · subst hwe; exact Or.inl ⟨a, [], by simp⟩
  by_cases h1 : u.length + w.length ≤ a.length
  · left
    have ha : a = (a ++ m ++ b).take a.length := by
      rw [List.append_assoc, List.take_left]
    rw [h] at ha
    rw [List.append_assoc, List.take_append_eq_append_take,
      List.take_of_length_le (by omega), List.take_append_eq_append_take,
      List.take_of_length_le (by omega)] at ha
    exact ⟨u, List.take (a.length - u.length - w.length) v, by
      rw [List.append_assoc]; exact ha⟩
  · by_cases h2 : a.length + m.length ≤ u.length
    · right
      have hb : b = (a ++ m ++ b).drop (a.length + m.length) := by
        rw [← List.length_append a m]
        exact (List.drop_left _ _).symm
      rw [h] at hb
      have e : (u ++ w ++ v).drop (a.length + m.length)
          = (u.drop (a.length + m.length) ++ w) ++ v := by
        rw [List.drop_append_eq_append_drop, List.drop_append_eq_append_drop]
        have h3 : a.length + m.length - u.length = 0 := by omega
        have h4 : a.length + m.length - (u ++ w).length = 0 := by
          simp only [List.length_append]; omega
        rw [h3, h4, List.drop_zero, List.drop_zero]
      rw [e] at hb
      exact ⟨u.drop (a.length + m.length), v, hb⟩
    · exfalso
      push_neg at h1 h2
      have hmlen : 0 < m.length := List.length_pos.2 hm
      have hwlen : 0 < w.length := List.length_pos.2 hwe
      have h' : a ++ (m ++ b) = u ++ (w ++ v) := by
        simpa [List.append_assoc] using h
      set j := max a.length u.length with hj
      have hjt : j < (a ++ (m ++ b)).length := by
        simp only [List.length_append]; omega
      have hjt2 : j < (u ++ (w ++ v)).length := by
        simp only [List.length_append]; omega
      have e1 : (a ++ (m ++ b))[j] ∈ m := by
        rw [List.getElem_append_right (by omega)]
        rw [List.getElem_append_left (by omega : j - a.length < m.length)]
        exact List.getElem_mem _
      have e2 : (u ++ (w ++ v))[j] ∈ w := by
        rw [List.getElem_append_right (by omega)]
        rw [List.getElem_append_left (by omega : j - u.length < w.length)]
        exact List.getElem_mem _
      have e3 : (a ++ (m ++ b))[j] = (u ++ (w ++ v))[j] :=
        List.getElem_of_eq h' hjt
      exact hdisj _ e1 (e3 ▸ e2)

theorem containsSub_cons_of {c : Char} {cs p : List Char} (h : containsSub cs p = true) :
    containsSub (c :: cs) p = true := by
  simp [containsSub, h]

theorem splitAtChar_eq {t : Char} : ∀ {l pre post : List Char},
    splitAtChar t l = some (pre, post) → l = pre ++ t :: post
  | [], pre, post => by simp [splitAtChar]
  | c :: cs, pre, post => by
    intro h
    by_cases hc : c = t
    · subst hc
      simp [splitAtChar] at h
      rcases h with ⟨rfl, rfl⟩
      simp
    · have hd : (c :: cs).dropWhile (fun x => x ≠ t) = cs.dropWhile (fun x => x ≠ t) := by
        simp [List.dropWhile_cons, hc]
      have ht : (c :: cs).takeWhile (fun x => x ≠ t) = c :: cs.takeWhile (fun x => x ≠ t) := by
        simp [List.takeWhile_cons, hc]
      unfold splitAtChar at h
      rw [hd, ht] at h
      cases hcs : cs.dropWhile (fun x => x ≠ t) with
      | nil => rw [hcs] at h; exact absurd h (by simp)
      | cons d ds =>
        rw [hcs] at h
        have h' : splitAtChar t cs = some (cs.takeWhile (fun x => x ≠ t), ds) := by
          unfold splitAtChar
          rw [hcs]
        simp only [Option.some.injEq, Prod.mk.injEq] at h
        have := splitAtChar_eq h'
        rw [← h.1, ← h.2, List.cons_append]
        exact congrArg (c :: ·) this

theorem leadsWithCI_length : ∀ {p l : List Char}, leadsWithCI p l = true → p.length ≤ l.length
  | [], l, _ => by simp
  | a :: ps, [], h => by simp [leadsWithCI] at h
  | a :: ps, c :: cs, h => by
    simp only [leadsWithCI, Bool.and_eq_true] at h
    simpa using leadsWithCI_length h.2

theorem leadsWithCI_take_lower : ∀ {p l : List Char}, leadsWithCI p l = true →
    (l.take p.length).map lowCh = p.map lowCh
  | [], l, _ => by simp
  | a :: ps, [], h => by simp [leadsWithCI] at h
  | a :: ps, c :: cs, h => by
    simp only [leadsWithCI, Bool.and_eq_true, ciEq, decide_eq_true_eq] at h
    simp only [List.length_cons, List.take_succ_cons, List.map_cons]
    rw [h.1, leadsWithCI_take_lower h.2]

theorem findSubCI_eq {pat : List Char} : ∀ {l pre mid post : List Char},
    findSubCI pat l = some (pre, mid, post) →
      l = pre ++ mid ++ post ∧ mid.map lowCh = pat.map lowCh
  | [], pre, mid, post => by
    intro h
    unfold findSubCI at h
    by_cases hp : pat.isEmpty
    · rw [if_pos hp] at h
      simp only [Option.some.injEq, Prod.mk.injEq] at h
      rw [List.isEmpty_iff] at hp
      rw [← h.1, ← h.2.1, ← h.2.2, hp]
      simp
    · rw [if_neg hp] at h
      exact absurd h (by simp)
  | c :: cs, pre, mid, post => by
    intro h
    unfold findSubCI at h
    by_cases hl : leadsWithCI pat (c :: cs) = true
    · rw [if_pos hl] at h
      simp only [Option.some.injEq, Prod.mk.injEq] at h
      refine ⟨?_, ?_⟩
      · rw [← h.1, ← h.2.1, ← h.2.2]
        simp
      · rw [← h.2.1]
        exact leadsWithCI_take_lower hl
    · rw [if_neg hl] at h
      cases hf : findSubCI pat cs with
      | none => rw [hf] at h; exact absurd h (by simp)
      | some tri =>
        obtain ⟨pre', mid', post'⟩ := tri
        rw [hf] at h
        simp only [Option.some.injEq, Prod.mk.injEq] at h
        obtain ⟨he, hm2⟩ := findSubCI_eq hf
        refine ⟨?_, by rw [← h.2.1]; exact hm2⟩
        rw [← h.1, ← h.2.1, ← h.2.2]
        rw [List.cons_append, List.cons_append]
        exact congrArg (c :: ·) he

theorem scriptMatchAt_spec {l : List Char} {m : ScriptMatch} {rest : List Char}
    (h : scriptMatchAt l = some (m, rest)) : l = m.full ++ rest ∧ m.full ≠ [] := by
  unfold scriptMatchAt at h
  by_cases hl : leadsWithCI "<script".data l = true
  · rw [if_pos hl] at h
    cases hsp : splitAtChar '>' (l.drop 7) with
    | none => rw [hsp] at h; exact absurd h (by simp)
    | some pr =>
      obtain ⟨attrs, afterGt⟩ := pr
      rw [hsp] at h
      dsimp only at h
      cases hf : findSubCI "</script>".data afterGt with
      | none => rw [hf] at h; exact absurd h (by simp)
      | some tri =>
        obtain ⟨body, closeTag, rest'⟩ := tri
        rw [hf] at h
        simp only [Option.some.injEq, Prod.mk.injEq] at h
        obtain ⟨hm, hrest⟩ := h
        have e1 : l = l.take 7 ++ l.drop 7 := (List.take_append_drop 7 l).symm
        have e2 := splitAtChar_eq hsp
        have e3 := (findSubCI_eq hf).1
        have h7 : (7 : ℕ) ≤ l.length := leadsWithCI_length hl
        constructor
        · rw [← hm, ← hrest]
          conv_lhs => rw [e1, e2, e3]
          simp [List.append_assoc]
        · rw [← hm]
          simp
  · rw [if_neg hl] at h
    exact absurd h (by simp)

theorem scriptMatchAt_closing {l : List Char} {m : ScriptMatch} {rest : List Char}
    (h : scriptMatchAt l = some (m, rest)) :
    containsSub (l.map lowCh) ("</script>".data) = true := by
  unfold scriptMatchAt at h
  by_cases hl : leadsWithCI "<script".data l = true
  · rw [if_pos hl] at h
    cases hsp : splitAtChar '>' (l.drop 7) with
    | none => rw [hsp] at h; exact absurd h (by simp)
    | some pr =>
      obtain ⟨attrs, afterGt⟩ := pr
      rw [hsp] at h
      dsimp only at h
      cases hf : findSubCI "</script>".data afterGt with
      | none => rw [hf] at h; exact absurd h (by simp)
      | some tri =>
        obtain ⟨body, closeTag, rest'⟩ := tri
        obtain ⟨he, hmap⟩ := findSubCI_eq hf
        have e1 : l = l.take 7 ++ l.drop 7 := (List.take_append_drop 7 l).symm
        have e2 := splitAtChar_eq hsp
        have hlow : ("</script>".data).map lowCh = "</script>".data := by decide
        apply (containsSub_iff _ _).2
        refine ⟨(l.take 7 ++ attrs ++ '>' :: body).map lowCh, rest'.map lowCh, ?_⟩
        conv_lhs => rw [e1, e2, he]
        rw [← hlow, ← hmap]
        simp [List.append_assoc]
  · rw [if_neg hl] at h
    exact absurd h (by simp)

theorem scriptScanAux_nil : ∀ (fuel : Nat) {l : List Char},
    containsSub (l.map lowCh) ("</script>".data) = false → scriptScanAux fuel l = []
  | 0, _, _ => rfl
  | _ + 1, [], _ => rfl
  | fuel + 1, c :: cs, h => by
    cases hm : scriptMatchAt (c :: cs) with
    | some pr =>
      obtain ⟨m, rest⟩ := pr
      rw [scriptMatchAt_closing hm] at h
      simp at h
    | none =>
      simp only [scriptScanAux, hm]
      apply scriptScanAux_nil fuel
      have h' := h
      rw [List.map_cons] at h'
      simp only [containsSub, Bool.or_eq_false_iff] at h'
      exact h'.2
theorem mset_append (a b : List Char) : mset (a ++ b) = mset a + mset b :=
  (Multiset.coe_add a b).symm

theorem scanStrip_mset : ∀ (fuel : Nat) (l Z : List Char), l.length ≤ fuel →
    mset ((scriptScanAux fuel l).foldl (fun x m => replaceFirstL m.full [] x) (Z ++ l))
      + mset (((scriptScanAux fuel l).map ScriptMatch.full).flatten)
      = mset (Z ++ l)
  | 0, l, Z, h => by
    have : l = [] := List.eq_nil_of_length_eq_zero (Nat.le_zero.1 h)
    subst this
    simp [scriptScanAux, mset]
  | fuel + 1, [], Z, _ => by simp [scriptScanAux, mset]
  | fuel + 1, c :: cs, Z, h => by
    cases hm : scriptMatchAt (c :: cs) with
    | none =>
      simp only [scriptScanAux, hm]
      have hZ : Z ++ c :: cs = (Z ++ [c]) ++ cs := by simp
      rw [hZ]
      exact scanStrip_mset fuel cs (Z ++ [c]) (by simpa using Nat.le_of_succ_le_succ h)
    | some pr =>
      obtain ⟨m, rest⟩ := pr
      obtain ⟨hspec, hne⟩ := scriptMatchAt_spec hm
      have hfl : 0 < m.full.length := List.length_pos.2 hne
      have hlencc : cs.length + 1 = m.full.length + rest.length := by
        have := congrArg List.length hspec
        simpa [List.length_append] using this
      have hh : cs.length + 1 ≤ fuel + 1 := by simpa using h
      have hrl : rest.length ≤ fuel := by omega
      have hinit : Z ++ (c :: cs) = Z ++ m.full ++ rest := by
        rw [hspec, List.append_assoc]
      obtain ⟨x, y, hxy, hrep, hlen⟩ := replaceFirstL_exhibit Z m.full rest []
      have hrest : rest = y.drop (Z.length - x.length) := by
        have hd := congrArg (List.drop (Z.length + m.full.length)) hxy
        rw [show Z.length + m.full.length = (Z ++ m.full).length by simp,
          List.drop_left] at hd
        rw [List.drop_append_eq_append_drop,
          List.drop_eq_nil_of_le (by simp [List.length_append]; omega),
          List.nil_append] at hd
        rw [show (Z ++ m.full).length - (x ++ m.full).length = Z.length - x.length by
          simp [List.length_append]; omega] at hd
        exact hd
      have hy : y = y.take (Z.length - x.length) ++ rest := by
        conv_lhs => rw [← List.take_append_drop (Z.length - x.length) y]
        rw [← hrest]
      have hxw : (x ++ m.full) ++ y.take (Z.length - x.length) = Z ++ m.full := by
        have ht := congrArg (List.take (Z.length + m.full.length)) hxy
        rw [show Z.length + m.full.length = (Z ++ m.full).length by simp,
          List.take_left] at ht
        rw [List.take_append_eq_append_take,
          List.take_of_length_le (l := x ++ m.full) (by simp [List.length_append]; omega)] at ht
        rw [show (Z ++ m.full).length - (x ++ m.full).length = Z.length - x.length by
          simp [List.length_append]; omega] at ht
        exact ht.symm
      have hxy2 : (x ++ [] ++ y : List Char)
          = (x ++ y.take (Z.length - x.length)) ++ rest := by
        rw [List.append_nil]
        conv_lhs => rw [hy]
        rw [List.append_assoc]
      simp only [scriptScanAux, hm, List.foldl_cons, List.map_cons, List.flatten_cons]
      rw [hinit, hrep, hxy2]
      have ih := scanStrip_mset fuel rest (x ++ y.take (Z.length - x.length)) hrl
      set A := mset ((scriptScanAux fuel rest).foldl (fun x m => replaceFirstL m.full [] x)
        ((x ++ y.take (Z.length - x.length)) ++ rest)) with hA
      set F := mset (((scriptScanAux fuel rest).map ScriptMatch.full).flatten) with hF
      rw [mset_append]
      -- ih : A + F = mset ((x ++ take) ++ rest)
      rw [mset_append] at ih
      have hcancel : mset x + mset (y.take (Z.length - x.length)) = mset Z := by
        have hc := congrArg mset hxw
        rw [mset_append, mset_append, mset_append] at hc
        have hc' : mset x + mset (y.take (Z.length - x.length)) + mset m.full
            = mset Z + mset m.full := by
          calc mset x + mset (y.take (Z.length - x.length)) + mset m.full
              = mset x + mset m.full + mset (y.take (Z.length - x.length)) := by abel
            _ = mset Z + mset m.full := hc
        exact add_right_cancel hc'
      rw [mset_append] at ih
      -- goal : A + (mset m.full + F) = mset (Z ++ m.full ++ rest)
      rw [mset_append, mset_append]
      calc A + (mset m.full + F)
          = (A + F) + mset m.full := by abel
        _ = (mset x + mset (y.take (Z.length - x.length)) + mset rest) + mset m.full := by
            rw [ih]
        _ = (mset Z + mset rest) + mset m.full := by rw [hcancel]
        _ = mset Z + mset m.full + mset rest := by abel

theorem count_dropWhile_eq {c : Char} {p : Char → Bool} (hc : p c = false) :
    ∀ l : List Char, (l.dropWhile p).count c = l.count c
  | [] => rfl
  | a :: l => by
    by_cases ha : p a = true
    · have hac : ¬(a = c) := fun he => by rw [he, hc] at ha; exact Bool.noConfusion ha
      rw [List.dropWhile_cons_of_pos ha, count_dropWhile_eq hc l, List.count_cons]
      simp [hac]
    · rw [List.dropWhile_cons_of_neg ha]

theorem count_trimWS {c : Char} (hc : jsSpace c = false) (l : List Char) :
    (trimWS l).count c = l.count c := by
  unfold trimWS
  rw [count_dropWhile_eq hc, List.count_reverse, count_dropWhile_eq hc, List.count_reverse]

theorem trimWS_append_ws {l : List Char} {c : Char} (hc : jsSpace c = true) :
    trimWS (l ++ [c]) = trimWS l := by
  unfold trimWS
  rw [List.reverse_append, show ([c].reverse : List Char) = [c] from rfl,
    List.singleton_append, List.dropWhile_cons_of_pos hc]

theorem foldl_pair_split (ms : List ScriptMatch) (a b : List Char) :
    ms.foldl (fun acc m => (replaceFirstL m.full [] acc.1, acc.2 ++ m.body ++ ['\n'])) (a, b)
      = (ms.foldl (fun x m => replaceFirstL m.full [] x) a,
         ms.foldl (fun x m => x ++ m.body ++ ['\n']) b) := by
  induction ms generalizing a b with
  | nil => rfl
  | cons m ms ih => simp only [List.foldl_cons, ih]

theorem foldl_body_append : ∀ (ms : List ScriptMatch) (acc : List Char),
    ms.foldl (fun x m => x ++ m.body ++ ['\n']) acc
      = acc ++ (ms.map (fun m => m.body ++ ['\n'])).flatten
  | [], acc => by simp
  | m :: ms, acc => by
    simp only [List.foldl_cons, List.map_cons, List.flatten_cons]
    rw [foldl_body_append ms]
    simp [List.append_assoc]

theorem flat_eq_joinNL : ∀ (bs : List (List Char)), bs ≠ [] →
    (bs.map (fun b => b ++ ['\n'])).flatten = joinNL bs ++ ['\n']
  | [], h => absurd rfl h
  | [b], _ => by simp [joinNL]
  | b :: b' :: bs, _ => by
    have ih := flat_eq_joinNL (b' :: bs) (by simp)
    simp only [List.map_cons, List.flatten_cons] at ih ⊢
    rw [ih, show joinNL (b :: b' :: bs) = b ++ '\n' :: joinNL (b' :: bs) from rfl]
    simp [List.append_assoc]

theorem extractJS_javascript (content : String) :
    (extractJavaScript content).javascript
      = strTrim ⟨joinNL ((scriptScan content.data).map ScriptMatch.body)⟩ := by
  unfold extractJavaScript
  rw [foldl_pair_split]
  simp only
  rw [foldl_body_append, List.nil_append]
  cases hms : scriptScan content.data with
  | nil => simp [joinNL, strTrim]
  | cons m ms =>
    have hmm : (m :: ms).map (fun m => m.body ++ ['\n'])
        = ((m :: ms).map ScriptMatch.body).map (fun b => b ++ ['\n']) := by
      rw [List.map_map]
      rfl
    rw [hmm, flat_eq_joinNL _ (by simp), trimWS_append_ws (by decide)]
    rfl

theorem extractJS_no_match (content : String) (h : scriptScan content.data = []) :
    extractJavaScript content = ⟨strTrim content, ""⟩ := by
  unfold extractJavaScript
  rw [h]
  rfl

theorem extractJS_no_close (content : String)
    (h : containsSub (content.data.map lowCh) ("</script>".data) = false) :
    extractJavaScript content = ⟨strTrim content, ""⟩ :=
  extractJS_no_match content (scriptScanAux_nil _ h)

theorem extractJS_css_count (content : String) {c : Char} (hc : jsSpace c = false) :
    ((extractJavaScript content).css.data).count c
      + ((((scriptScan content.data).map ScriptMatch.full).flatten).count c)
      = content.data.count c := by
  unfold extractJavaScript
  rw [foldl_pair_split]
  simp only
  rw [count_trimWS hc]
  have hs := scanStrip_mset content.data.length content.data [] (le_refl _)
  rw [List.nil_append] at hs
  have hcnt := congrArg (Multiset.count c) hs
  simp only [mset, Multiset.count_add, Multiset.coe_count] at hcnt
  exact hcnt

theorem addStep_foldl_acc : ∀ (adds : List AddMatch) (sel : List Char)
    (cssAcc : List Char) (cmds : List AddCommand),
    adds.foldl (addStep sel) (cssAcc, cmds)
      = (adds.foldl (fun x m => replaceFirstL m.full [] x) cssAcc,
         cmds ++ adds.map (fun m => cmdOfPair (sel, m)))
  | [], sel, cssAcc, cmds => by simp
  | m :: adds, sel, cssAcc, cmds => by
    simp only [List.foldl_cons, List.map_cons]
    rw [show addStep sel (cssAcc, cmds) m
        = (replaceFirstL m.full [] cssAcc, cmds ++ [cmdOfPair (sel, m)]) from rfl]
    rw [addStep_foldl_acc adds sel]
    simp [List.append_assoc]

theorem foldl_append_init {α β : Type} (f : β → List α) :
    ∀ (rules : List β) (init : List α),
      rules.foldl (fun acc r => acc ++ f r) init
        = init ++ rules.foldl (fun acc r => acc ++ f r) []
  | [], init => by simp
  | r :: rs, init => by
    simp only [List.foldl_cons]
    rw [foldl_append_init f rs (init ++ f r), foldl_append_init f rs ([] ++ f r)]
    simp [List.append_assoc]

theorem ruleStep_foldl : ∀ (rules : List RuleMatch) (cssAcc : List Char)
    (cmds : List AddCommand),
    rules.foldl ruleStep (cssAcc, cmds)
      = ((rules.foldl (fun acc r => acc ++ (addScan r.body).map (fun m => (r.selector, m))) []
            ).foldl (fun x p => replaceFirstL p.2.full [] x) cssAcc,
         cmds ++ (rules.foldl
            (fun acc r => acc ++ (addScan r.body).map (fun m => (r.selector, m))) []
            ).map cmdOfPair)
  | [], cssAcc, cmds => by simp
  | r :: rs, cssAcc, cmds => by
    simp only [List.foldl_cons]
    rw [show ruleStep (cssAcc, cmds) r = (addScan r.body).foldl (addStep r.selector)
      (cssAcc, cmds) from rfl]
    rw [addStep_foldl_acc, ruleStep_foldl rs]
    rw [foldl_append_init _ rs ([] ++ (addScan r.body).map (fun m => (r.selector, m)))]
    rw [List.nil_append]
    rw [List.foldl_append, List.foldl_map, List.map_append, List.map_map]
    simp [Function.comp, List.append_assoc]

theorem processAddSyntax_flat (css : String) :
    processAddSyntax css
      = (⟨(allDirectives css).foldl (fun x p => replaceFirstL p.2.full [] x) css.data⟩,
         (allDirectives css).map cmdOfPair) := by
  unfold processAddSyntax allDirectives
  rw [ruleStep_foldl]
  simp

theorem foldl_append_nil {α β : Type} (f : β → List α) :
    ∀ (rules : List β), (∀ r ∈ rules, f r = []) →
      rules.foldl (fun acc r => acc ++ f r) [] = []
  | [], _ => rfl
  | r :: rs, h => by
    simp only [List.foldl_cons, List.nil_append, h r (by simp)]
    exact foldl_append_nil f rs (fun r' hr' => h r' (by simp [hr']))

theorem processAddSyntax_no_match (css : String)
    (h : ∀ r ∈ ruleScan css.data, addScan r.body = []) :
    processAddSyntax css = (css, []) := by
  have hD : allDirectives css = [] := by
    unfold allDirectives
    exact foldl_append_nil _ _ (fun r hr => by rw [h r hr]; rfl)
  rw [processAddSyntax_flat, hD]
  rfl

theorem boolEqOfIff {a b : Bool} (h : a = true ↔ b = true) : a = b := by
  cases a <;> cases b <;> simp_all

theorem containsSub_mid_iff {x mid y w : List Char} (hmid : mid ≠ [])
    (hdisj : ∀ c ∈ mid, c ∉ w) :
    containsSub (x ++ mid ++ y) w = (containsSub x w || containsSub y w) := by
  apply boolEqOfIff
  rw [Bool.or_eq_true]
  constructor
  · intro h
    obtain ⟨u, v, huv⟩ := (containsSub_iff _ _).1 h
    rcases occSplit hmid hdisj huv with ⟨p, q, hx⟩ | ⟨p, q, hy⟩
    · exact Or.inl ((containsSub_iff _ _).2 ⟨p, q, hx⟩)
    · exact Or.inr ((containsSub_iff _ _).2 ⟨p, q, hy⟩)
  · rintro (h | h)
    · rw [List.append_assoc]
      exact containsSub_append_left _ h
    · exact containsSub_append_right _ h

theorem contains_replace_marker (s w : String)
    (hdash : ('-' : Char) ∉ w.data)
    (hn : ('N' : Char) ∉ w.data) (he : ('E' : Char) ∉ w.data)
    (hg : ('G' : Char) ∉ w.data) :
    strContains (strReplaceFirst s "--" "NEG") w = strContains s w := by
  unfold strContains strReplaceFirst
  by_cases hc : containsSub s.data "--".data = true
  · obtain ⟨x, y, hx, hr⟩ := replaceFirstL_split (r := "NEG".data) hc
    show containsSub (replaceFirstL "--".data "NEG".data s.data) w.data = _
    rw [hr, hx]
    rw [containsSub_mid_iff (by decide) (by
      intro c hcm
      have hc3 : c = 'N' ∨ c = 'E' ∨ c = 'G' := by simpa using hcm
      rcases hc3 with rfl | rfl | rfl
      · exact hn
      · exact he
      · exact hg)]
    rw [containsSub_mid_iff (by decide) (by
      intro c hcm
      have hc2 : c = '-' := by
        have : c = '-' ∨ c = '-' := by simpa using hcm
        rcases this with rfl | rfl <;> rfl
      subst hc2
      exact hdash)]
  · have hc' : containsSub s.data "--".data = false := by
      cases h : containsSub s.data "--".data
      · rfl
      · exact absurd h hc
    show containsSub (replaceFirstL "--".data "NEG".data s.data) w.data = _
    rw [replaceFirstL_of_not hc']

theorem parsePosition_center (s : String)
    (hc : strContains s "center" = true)
    (ht : strContains s "top" = false) (hb : strContains s "bottom" = false)
    (hl : strContains s "left" = false) (hr : strContains s "right" = false) :
    parsePosition s
      = [("left", "50%"), ("top", "50%"), ("transform", "translate(-50%, -50%)")] := by
  have hne : s ≠ "" := by
    intro h
    rw [h] at hc
    exact absurd hc (by decide)
  unfold parsePosition
  rw [if_neg hne]
  dsimp only
  rw [contains_replace_marker s "top" (by decide) (by decide) (by decide) (by decide),
    contains_replace_marker s "bottom" (by decide) (by decide) (by decide) (by decide),
    contains_replace_marker s "left" (by decide) (by decide) (by decide) (by decide),
    contains_replace_marker s "right" (by decide) (by decide) (by decide) (by decide),
    contains_replace_marker s "center" (by decide) (by decide) (by decide) (by decide)]
  rw [ht, hb, hl, hr, hc]
  rfl

theorem foldl_overwrite : ∀ (l : List String) (o : Option String),
    l.foldl (fun _ p => some p) o = match l with | [] => o | _ :: _ => l.getLast?
  | [], o => rfl
  | p :: ps, o => by
    simp only [List.foldl_cons]
    rw [foldl_overwrite ps (some p)]
    cases ps with
    | nil => rfl
    | cons q qs => rw [List.getLast?_cons_cons]

theorem imgStep_foldl : ∀ (ps : List String) (acc : Option String × List (String × String)),
    ps.foldl imgStep acc
      = ((ps.filter (fun p => p != "" && strContains p "x")).foldl (fun _ p => some p) acc.1,
         (ps.filter (fun p => p != "" && !strContains p "x")).foldl
           (fun m p => objAssign m (parsePosition p)) acc.2)
  | [], acc => rfl
  | p :: ps, acc => by
    simp only [List.foldl_cons, List.filter_cons]
    by_cases h1 : (p != "" && strContains p "x") = true
    · have h2 : (p != "" && !strContains p "x") = false := by
        have h1' : (p != "") = true ∧ strContains p "x" = true := by simpa using h1
        simp [h1'.1, h1'.2]
      rw [if_pos h1, h2]
      simp only [Bool.false_eq_true, if_false, List.foldl_cons]
      rw [imgStep_foldl ps (imgStep acc p)]
      have : imgStep acc p = (some p, acc.2) := by
        unfold imgStep
        rw [if_pos h1]
      rw [this]
    · rw [if_neg h1]
      by_cases hp : (p != "") = true
      · have hx : strContains p "x" = false := by
          cases hax : strContains p "x"
          · rfl
          · exact absurd (show (p != "" && strContains p "x") = true by simp [hp, hax]) h1
        have h2 : (p != "" && !strContains p "x") = true := by simp [hp, hx]
        rw [h2]
        simp only [if_true, List.foldl_cons]
        rw [imgStep_foldl ps (imgStep acc p)]
        have : imgStep acc p = (acc.1, objAssign acc.2 (parsePosition p)) := by
          unfold imgStep
          rw [if_neg h1, if_pos hp]
        rw [this]
      · have h2 : (p != "" && !strContains p "x") = false := by
          simp only [Bool.and_eq_true, not_and] at h1 ⊢
          cases hq : (p != "")
          · simp
          · exact absurd hq (by simpa using hp)
        rw [h2]
        simp only [Bool.false_eq_true, if_false]
        rw [imgStep_foldl ps (imgStep acc p)]
        have : imgStep acc p = acc := by
          unfold imgStep
          rw [if_neg h1, if_neg (by simpa using hp)]
        rw [this]

theorem parseImageCommand_distrib (selector className content : String)
    (params : List String) :
    (parseImageCommand selector className content params).size
        = (params.filter (fun p => p != "" && strContains p "x")).getLast?
      ∧ (parseImageCommand selector className content params).position
        = (params.filter (fun p => p != "" && !strContains p "x")).foldl
            (fun m p => objAssign m (parsePosition p)) [] := by
  unfold parseImageCommand
  dsimp only
  rw [imgStep_foldl]
  refine ⟨?_, rfl⟩
  show (params.filter _).foldl (fun _ p => some p) none = _
  rw [foldl_overwrite]
  cases params.filter (fun p => p != "" && strContains p "x") with
  | nil => rfl
  | cons q qs => rfl

theorem process_identity (content : String)
    (hs : scriptScan content.data = [])
    (ha : ∀ r ∈ ruleScan (trimWS content.data), addScan r.body = []) :
    process content = ⟨strTrim content, "", []⟩ := by
  by_cases hne : content = ""
  · subst hne
    rfl
  · unfold process
    rw [if_neg hne, extractJS_no_match content hs]
    have hadd := processAddSyntax_no_match (strTrim content) ha
    simp only
    rw [hadd]

theorem length_foldl_append {α β : Type} (f : β → List α) :
    ∀ (rules : List β) (init : List α),
      (rules.foldl (fun acc r => acc ++ f r) init).length
        = init.length + (rules.map (fun r => (f r).length)).sum
  | [], init => by simp
  | r :: rs, init => by
    simp only [List.foldl_cons, List.map_cons, List.sum_cons]
    rw [length_foldl_append f rs (init ++ f r)]
    simp [List.length_append]
    omega

/-- C1 (counterexample): contrary to the claim, the first parameter containing
`x` does not win and a later `x`-containing parameter is not sent to the
position translator: with parameters `100x50` then `top-10px` (which contains
the letter `x` in `px`), `parseImageCommand` ends with `size = "top-10px"` and
an empty position mapping. -/
theorem c1_counterexample :
    (parseImageCommand ".card" "deco" "url(http://x/y.png)" ["100x50", "top-10px"]).size
        = some "top-10px"
      ∧ (parseImageCommand ".card" "deco" "url(http://x/y.png)" ["100x50", "top-10px"]).position
        = [] :=
  ⟨rfl, rfl⟩

/-- C1 (amended): in `parseImageCommand` every nonempty parameter containing
the character `x` overwrites the size (so the last such parameter wins, and
none of them reaches the position translator), while the position mapping is
the merge, in order, of the translations of the nonempty parameters not
containing `x`. -/
theorem c1_amended (selector className content : String) (params : List String) :
    (parseImageCommand selector className content params).size
        = (params.filter (fun p => p != "" && strContains p "x")).getLast?
      ∧ (parseImageCommand selector className content params).position
        = (params.filter (fun p => p != "" && !strContains p "x")).foldl
            (fun m p => objAssign m (parsePosition p)) [] :=
  parseImageCommand_distrib selector className content params

/-- C2 (counterexample): on the claimed rule the single parsed Image command
has `size = "top-10px"` (the position token, since `px` contains `x`,
overwrote `100x50`) and an empty position mapping, not `size = "100x50"` with
`position = (top, 10px)` as the claim states. -/
theorem c2_counterexample :
    ((processAddSyntax
        ".card \x7b @add: deco \"url(http://x/y.png)\" 100x50 top-10px; color:red; \x7d").2.map
          AddCommand.size = [some "top-10px"])
      ∧ ((processAddSyntax
        ".card \x7b @add: deco \"url(http://x/y.png)\" 100x50 top-10px; color:red; \x7d").2.map
          AddCommand.position = [[]]) :=
  ⟨rfl, rfl⟩

/-- C2 (amended): processing the rule
`.card \x7b @add: deco "url(http://x/y.png)" 100x50 top-10px; color:red; \x7d`
produces exactly one Image command with className `deco`,
url `http://x/y.png`, `size = "top-10px"` (the later `x`-containing parameter
overwrites the size) and an empty position mapping, and the returned CSS is
the input with the matched directive substring removed: the `.card` rule with
`color:red;` and intact braces remains. -/
theorem c2_amended :
    processAddSyntax
        ".card \x7b @add: deco \"url(http://x/y.png)\" 100x50 top-10px; color:red; \x7d"
      = (".card \x7b  color:red; \x7d",
         [{ type := "image", selector := ".card", className := "deco",
            url := some "http://x/y.png", text := none, size := some "top-10px",
            position := [] }]) :=
  rfl

/-- C3 (code evaluation at the failing input): the double-hyphen token
`top--10px` is translated to `(top, "0-10px")`, not `(top, "-10px")` as both
the claim and the code's own negative-value comment intend: the `--`-to-`NEG`
substitution consumes the separator hyphen, so the `top-` strip never applies
and the later `top`-to-`0` replacement leaves a stray `0` in front. -/
theorem c3_code_eval :
    parsePosition "top--10px" = [("top", "0-10px")]
      ∧ parsePosition "top--10px" ≠ [("top", "-10px")] := by
  refine ⟨rfl, by decide⟩

/-- C4: `top-10px` translates to `(top, 10px)`, `left-50%` to `(left, 50%)`,
the bare keyword `top` to `(top, 0)`, and every token containing `center` but
none of `top`, `bottom`, `left`, `right` translates to exactly the triple
`left 50%, top 50%, transform translate(-50%, -50%)`, whatever else the token
contains. -/
theorem c4_confirmed :
    parsePosition "top-10px" = [("top", "10px")]
      ∧ parsePosition "left-50%" = [("left", "50%")]
      ∧ parsePosition "top" = [("top", "0")]
      ∧ ∀ s : String, strContains s "center" = true →
          strContains s "top" = false → strContains s "bottom" = false →
          strContains s "left" = false → strContains s "right" = false →
          parsePosition s
            = [("left", "50%"), ("top", "50%"), ("transform", "translate(-50%, -50%)")] :=
  ⟨rfl, rfl, rfl, fun s hc ht hb hl hr => parsePosition_center s hc ht hb hl hr⟩

/-- C4 (witness): the center branch applied at the concrete token `center`. -/
theorem c4_witness :
    parsePosition "center"
      = [("left", "50%"), ("top", "50%"), ("transform", "translate(-50%, -50%)")] :=
  c4_confirmed.2.2.2 "center" (by decide) (by decide) (by decide) (by decide) (by decide)

/-- C5: on input with no script-regex match and no directive-regex match in
any rule body, `process` returns the trimmed input as CSS, an empty script,
and an empty command list. -/
theorem c5_confirmed (content : String)
    (hs : scriptScan content.data = [])
    (ha : ∀ r ∈ ruleScan (trimWS content.data), addScan r.body = []) :
    process content = ⟨strTrim content, "", []⟩ :=
  process_identity content hs ha

/-- C5 (witness): the identity behaviour at a concrete directive-free,
script-free stylesheet. -/
theorem c5_witness :
    process ".a \x7b color: red; \x7d" = ⟨".a \x7b color: red; \x7d", "", []⟩ := by
  have h := c5_confirmed ".a \x7b color: red; \x7d" rfl (by decide)
  exact h

/-- C6 (counterexample): on the input
`<scr<script>a</script>ipt>z</script><script>z</script>` the splitter matches
the two blocks with bodies `a` and `z`, yet its CSS output is the complete
script block `<script>z</script>`: deleting the first textual occurrence of
each match joined the leading fragments into a copy of the second block, which
was deleted in place of the real one.  A matched script body (indeed a whole
matched block) thus appears in the returned CSS, contrary to the claim. -/
theorem c6_counterexample :
    (extractJavaScript "<scr<script>a</script>ipt>z</script><script>z</script>").css
        = "<script>z</script>"
      ∧ (extractJavaScript "<scr<script>a</script>ipt>z</script><script>z</script>").javascript
        = "a\nz"
      ∧ (scriptScan "<scr<script>a</script>ipt>z</script><script>z</script>".data).map
          ScriptMatch.body = ["a".data, "z".data]
      ∧ strContains
          (extractJavaScript "<scr<script>a</script>ipt>z</script><script>z</script>").css
          "z" = true :=
  ⟨rfl, rfl, rfl, rfl⟩

/-- C6 (amended): the returned javascript is the trimmed newline-join of the
matched bodies in match order; every non-whitespace character of the input is
accounted for exactly once between the returned CSS and the matched block
texts (each match deletes one occurrence of its text from the evolving CSS);
and an input whose lower-casing contains no `</script>` has no match, so its
text is left verbatim (trimmed) in the CSS with an empty javascript.  However
the deleted occurrence may differ from the matched instance, so a matched
script body can remain in the returned CSS. -/
theorem c6_amended (content : String) :
    (extractJavaScript content).javascript
        = strTrim ⟨joinNL ((scriptScan content.data).map ScriptMatch.body)⟩
      ∧ (∀ c : Char, jsSpace c = false →
          ((extractJavaScript content).css.data.count c)
            + ((((scriptScan content.data).map ScriptMatch.full).flatten).count c)
            = content.data.count c)
      ∧ (containsSub (content.data.map lowCh) ("</script>".data) = false →
          extractJavaScript content = ⟨strTrim content, ""⟩) :=
  ⟨extractJS_javascript content,
   fun _ hc => extractJS_css_count content hc,
   fun h => extractJS_no_close content h⟩

/-- C6 (witness): the unterminated-tag clause at `<script>x` and the character
count at a concrete matched input. -/
theorem c6_witness :
    extractJavaScript "<script>x" = ⟨"<script>x", ""⟩
      ∧ ((extractJavaScript "a <script>b</script>").css.data.count 'b')
          + ((((scriptScan "a <script>b</script>".data).map ScriptMatch.full).flatten).count 'b')
          = "a <script>b</script>".data.count 'b' := by
  refine ⟨?_, (c6_amended "a <script>b</script>").2.1 'b' (by decide)⟩
  have h := (c6_amended "<script>x").2.2 (by decide)
  exact h

/-- C7 (counterexample): contrary to the claim, `createImageElement` in
`src/cssProcessor.js` gives a command without a parsed size an explicit
default width and height of `50px` each. -/
theorem c7_counterexample :
    (createImageElement
        { type := "image", selector := ".a", className := "c", url := some "u" }).width
        = some "50px"
      ∧ (createImageElement
        { type := "image", selector := ".a", className := "c", url := some "u" }).height
        = some "50px" :=
  ⟨rfl, rfl⟩

/-- C7 (amended): when no size was parsed, the `cssProcessor.js` executor sets
the explicit default `50px` width and height on the decoration node, while the
`part_001` executor variant sets no width or height at all (CSS defaults). -/
theorem c7_amended (cmd : AddCommand) (h : cmd.size = none) :
    (createImageElement cmd).width = some "50px"
      ∧ (createImageElement cmd).height = some "50px"
      ∧ (createImageElementVariant cmd).width = none
      ∧ (createImageElementVariant cmd).height = none := by
  unfold createImageElement createImageElementVariant
  rw [h]
  exact ⟨rfl, rfl, rfl, rfl⟩

/-- C7 (witness): the two executors applied to a concrete size-less command. -/
theorem c7_witness :
    (createImageElement
        { type := "image", selector := ".b", className := "d", url := some "v" }).width
        = some "50px"
      ∧ (createImageElement
        { type := "image", selector := ".b", className := "d", url := some "v" }).height
        = some "50px"
      ∧ (createImageElementVariant
        { type := "image", selector := ".b", className := "d", url := some "v" }).width
        = none
      ∧ (createImageElementVariant
        { type := "image", selector := ".b", className := "d", url := some "v" }).height
        = none :=
  c7_amended { type := "image", selector := ".b", className := "d", url := some "v" } rfl

/-- C8: the command list is exactly the image of the directive-regex matches
(every match yields a command, nothing else does), the CSS output is the input
with, per match, one first occurrence of the matched substring deleted (so
nothing else is ever deleted), and when no rule body has a match the CSS is
returned unmodified with no commands and no error — in particular a
directive-like text that fails the grammar is left in place. -/
theorem c8_confirmed (css : String) :
    (processAddSyntax css).2 = (allDirectives css).map cmdOfPair
      ∧ (processAddSyntax css).1.data
          = (allDirectives css).foldl (fun x p => replaceFirstL p.2.full [] x) css.data
      ∧ ((∀ r ∈ ruleScan css.data, addScan r.body = []) →
          processAddSyntax css = (css, [])) := by
  refine ⟨?_, ?_, processAddSyntax_no_match css⟩
  · rw [processAddSyntax_flat]
  · rw [processAddSyntax_flat]

/-- C8 (witness): a rule whose directive lacks its closing quote matches
nothing: the CSS is returned unchanged and no command is emitted. -/
theorem c8_witness :
    processAddSyntax ".a \x7b @add: broken \"no-close; color: red; \x7d"
      = (".a \x7b @add: broken \"no-close; color: red; \x7d", []) :=
  (c8_confirmed ".a \x7b @add: broken \"no-close; color: red; \x7d").2.2 (by decide)

/-- C9: the empty input short-circuits `process` to the neutral result. -/
theorem c9_confirmed : process "" = ⟨"", "", []⟩ := rfl

/-- C10 (counterexample): in
`@add: a "b"; .x \x7b @add: a "b"; \x7d` the directive inside the rule body is
matched and emits one command, but the deletion removes the first textual
occurrence of the matched substring — the copy sitting in selector position —
so the matched directive substring itself is still present in the CSS
output, contrary to the claim that every matched directive substring is
removed. -/
theorem c10_counterexample :
    (processAddSyntax "@add: a \"b\"; .x \x7b @add: a \"b\"; \x7d").2.length = 1
      ∧ (processAddSyntax "@add: a \"b\"; .x \x7b @add: a \"b\"; \x7d").1
          = " .x \x7b @add: a \"b\"; \x7d"
      ∧ strContains (processAddSyntax "@add: a \"b\"; .x \x7b @add: a \"b\"; \x7d").1
          "@add: a \"b\";" = true :=
  ⟨rfl, rfl, rfl⟩

/-- C10 (amended): `parseAddCommand` yields a command for every directive
match (the null guard is unreachable), so the number of emitted commands
equals the total number of directive-regex matches over all rule bodies; each
match deletes one occurrence of its matched substring from the evolving CSS,
but that occurrence may differ from the matched instance, so a matched
directive's own text can survive in the output. -/
theorem c10_amended (css : String) :
    (processAddSyntax css).2.length
      = ((ruleScan css.data).map (fun r => (addScan r.body).length)).sum := by
  rw [processAddSyntax_flat]
  simp only [List.length_map]
  unfold allDirectives
  rw [length_foldl_append]
  simp
